import Mathlib

/-!
Verification of the marko_polo Markov-chain quote generator (src/main.c).

Words (C strings, `char *` compared with strcmp) are modelled as lists of
byte values. All machine arithmetic on `size_t` hashes is taken modulo
2 ^ 64. Fallible / undefined-behavior paths are modelled with `Option`.
-/

/-- A word: the byte values of a NUL-terminated C string (excluding the NUL). -/
abbrev Word := List Nat

/-- MARKOV_CONTEXT_SIZE from main.c: the number of words held in context. -/
def MARKOV_CONTEXT_SIZE : Nat := 3

/-- MAX_QUOTE_LENGTH from main.c: the bound used by the generation loop. -/
def MAX_QUOTE_LENGTH : Nat := 50

/-- HASH_MAP_SIZE from main.c: the number of buckets in the model hash map. -/
def HASH_MAP_SIZE : Nat := 420

/-- MarkovContext from main.c: the `previous_words` array of
MARKOV_CONTEXT_SIZE (= 3) slots; `none` models a NULL slot. Field `w0` is
`previous_words[0]` (oldest), `w2` is `previous_words[2]` (newest). -/
structure MarkovContext where
  w0 : Option Word
  w1 : Option Word
  w2 : Option Word
deriving DecidableEq

/-- markov_context_new: calloc gives a context with every slot NULL. -/
def markov_context_new : MarkovContext :=
  { w0 := none, w1 := none, w2 := none }

/-- markov_context_reset: every slot is set back to NULL. -/
def markov_context_reset (_context : MarkovContext) : MarkovContext :=
  { w0 := none, w1 := none, w2 := none }

/-- markov_context_push_word: slots shift one index toward the front
(`previous_words[i] = previous_words[i+1]`) and the duplicated word is
stored in the last slot. -/
def markov_context_push_word (context : MarkovContext) (word : Word) : MarkovContext :=
  { w0 := context.w1, w1 := context.w2, w2 := some word }

/-- One filled-slot comparison step of markov_context_check_match: NULL
matches only NULL, and two stored words match when strcmp returns 0
(byte-list equality). -/
def markov_slot_match (x y : Option Word) : Bool :=
  match x, y with
  | none, none => true
  | some u, some v => u == v
  | _, _ => false

/-- markov_context_check_match: true iff the slot comparison succeeds at
every index 0, 1, 2 (the C loop returns false at the first mismatch). -/
def markov_context_check_match (a b : MarkovContext) : Bool :=
  markov_slot_match a.w0 b.w0 && markov_slot_match a.w1 b.w1 && markov_slot_match a.w2 b.w2

/-- One character step of markov_context_get_hash:
`hash = ((hash << 5) + hash) + c`, in `size_t` arithmetic. -/
def markov_hash_step (h c : Nat) : Nat :=
  ((h <<< 5) + h + c) % 2 ^ 64

/-- One slot of markov_context_get_hash: a stored word feeds every byte
through the step; a NULL slot performs the single step
`hash = (hash << 5) + hash`. -/
def markov_hash_slot (h : Nat) : Option Word → Nat
  | some w => w.foldl markov_hash_step h
  | none => ((h <<< 5) + h) % 2 ^ 64

/-- markov_context_get_hash: djb2 over the three slots, seed 5381. -/
def markov_context_get_hash (c : MarkovContext) : Nat :=
  markov_hash_slot (markov_hash_slot (markov_hash_slot 5381 c.w0) c.w1) c.w2

/-- markov_context_copy: a fresh context receives a push for each
non-NULL word of the original, in slot order (the C loop skips NULLs). -/
def markov_context_copy (c : MarkovContext) : MarkovContext :=
  let n0 := markov_context_new
  let n1 := match c.w0 with
    | some w => markov_context_push_word n0 w
    | none => n0
  let n2 := match c.w1 with
    | some w => markov_context_push_word n1 w
    | none => n1
  match c.w2 with
  | some w => markov_context_push_word n2 w
  | none => n2

/-- Slot accessor: `previous_words[i]` for i = 0, 1, 2. -/
def markov_context_slot (c : MarkovContext) : Nat → Option Word
  | 0 => c.w0
  | 1 => c.w1
  | _ => c.w2

/-- A context is canonical when its unfilled slots form a contiguous
prefix: a filled slot is never followed by an unfilled one. Every context
the program builds via new / push / reset has this shape. -/
def markov_context_canonical (c : MarkovContext) : Prop :=
  (c.w0.isSome = true → c.w1.isSome = true) ∧ (c.w1.isSome = true → c.w2.isSome = true)

instance (c : MarkovContext) : Decidable (markov_context_canonical c) := by
  unfold markov_context_canonical
  exact inferInstance

/-- MarkovValue from main.c: the linked list of (word, count) pairs of a
transition table, in list (iteration) order. -/
abbrev MarkovValue := List (Word × Nat)

/-- The membership walk at the top of markov_value_add_word: does some
node of the list hold this word (strcmp equality)? -/
def mv_has_word : MarkovValue → Word → Bool
  | [], _ => false
  | (x, _) :: rest, w => if x = w then true else mv_has_word rest w

/-- The increment path of markov_value_add_word: the first node holding
the word has its count raised by one, the list order unchanged. -/
def mv_increment : MarkovValue → Word → MarkovValue
  | [], _ => []
  | (x, c) :: rest, w =>
    if x = w then (x, c + 1) :: rest else (x, c) :: mv_increment rest w

/-- markov_value_add_word: if the word is already stored its count is
incremented; otherwise a fresh node (markov_value_new: count 1) is pushed
to the front with `next` pointing at the old head. A NULL list (the
create-on-first-use call `markov_value_add_word(NULL, word)`) is the empty
list. -/
def markov_value_add_word (value : MarkovValue) (word : Word) : MarkovValue :=
  if mv_has_word value word then mv_increment value word
  else (word, 1) :: value

/-- The total-count loop at the top of markov_value_get_random. -/
def mv_total : MarkovValue → Nat
  | [] => 0
  | (_, c) :: rest => c + mv_total rest

/-- The subtracting walk of markov_value_get_random: return the word of
the first node whose count exceeds the running remainder. -/
def mv_walk : MarkovValue → Nat → Option Word
  | [], _ => none
  | (w, c) :: rest, r => if r < c then some w else mv_walk rest (r - c)

/-- markov_value_get_random with the C `rand()` draw injected: the value
sampled is `rand % total`, and the final `return value->word` fallback
(unreachable for an in-range draw) yields the head word. -/
def markov_value_get_random (value : MarkovValue) (rand : Nat) : Option Word :=
  match mv_walk value (rand % mv_total value) with
  | some w => some w
  | none => value.head?.map Prod.fst

/-- MarkovNode from main.c: one (context, transition table) entry of a
bucket; a bucket is the list formed by the `next` chain. -/
abbrev MarkovNode := MarkovContext × MarkovValue

/-- The search walk of markov_node_add_node: does some node of the bucket
hold a matching context? -/
def markov_node_has_context : List MarkovNode → MarkovContext → Bool
  | [], _ => false
  | n :: rest, context =>
    if markov_context_check_match n.1 context then true
    else markov_node_has_context rest context

/-- The in-place path of markov_node_add_node: the first node with a
matching context receives the word in its value list. -/
def markov_node_update : List MarkovNode → MarkovContext → Word → List MarkovNode
  | [], _, _ => []
  | n :: rest, context, word =>
    if markov_context_check_match n.1 context then
      (n.1, markov_value_add_word n.2 word) :: rest
    else n :: markov_node_update rest context word

/-- markov_node_add_node: add the word to the first matching node, or
prepend a fresh node holding a deep copy of the context and a one-entry
value list (`markov_value_add_word(NULL, word)`). -/
def markov_node_add_node (node : List MarkovNode) (context : MarkovContext)
    (word : Word) : List MarkovNode :=
  if markov_node_has_context node context then markov_node_update node context word
  else (markov_context_copy context, markov_value_add_word [] word) :: node

/-- The walk of markov_model_get_next: the value list of the first node of
the bucket whose context matches, if any. -/
def markov_node_find_value : List MarkovNode → MarkovContext → Option MarkovValue
  | [], _ => none
  | n :: rest, context =>
    if markov_context_check_match n.1 context then some n.2
    else markov_node_find_value rest context

/-- MarkovModel from main.c: `size` buckets of MarkovNode chains. -/
structure MarkovModel where
  size : Nat
  nodes : List (List MarkovNode)
deriving DecidableEq

/-- markov_model_new: `size` empty (calloc-NULLed) buckets. -/
def markov_model_new (size : Nat) : MarkovModel :=
  { size := size, nodes := List.replicate size [] }

/-- markov_model_add_data: the bucket at `hash(context) % size` receives
the (context, word) observation through markov_node_add_node. -/
def markov_model_add_data (model : MarkovModel) (context : MarkovContext)
    (word : Word) : MarkovModel :=
  let index := markov_context_get_hash context % model.size
  { model with
    nodes := model.nodes.set index
      (markov_node_add_node (model.nodes.getD index []) context word) }

/-- markov_model_get_next with the `rand()` draw injected: a matching node
in the bucket at `hash(context) % size` is sampled; a NULL result (no
matching node) is `none`. -/
def markov_model_get_next (model : MarkovModel) (context : MarkovContext)
    (rand : Nat) : Option Word :=
  match markov_node_find_value
      (model.nodes.getD (markov_context_get_hash context % model.size) []) context with
  | some value => markov_value_get_random value rand
  | none => none

/-- check_end_condition: the word contains '.' (46), '!' (33) or '?' (63). -/
def check_end_condition (word : Word) : Bool :=
  word.any (fun c => c == 46 || c == 33 || c == 63)

/-- The loop of markov_model_generate_quote. `fuel` is the number of loop
tests still allowed (`MAX_QUOTE_LENGTH + 1 - counter`, because the C test
is `counter <= MAX_QUOTE_LENGTH`); `counter` indexes the injected random
draws; `quote` is the accumulated word list. When markov_model_get_next
returns NULL the C code still calls markov_context_push_word on the NULL
word, which calls `strdup(NULL)` — undefined behavior — before the
`if (!word) break;` test is reached; this is modelled as `none`. -/
def markov_generate_loop (model : MarkovModel) (rands : Nat → Nat) :
    Nat → Nat → MarkovContext → List Word → Option (List Word)
  | 0, _, _, quote => some quote
  | fuel + 1, counter, context, quote =>
    match markov_model_get_next model context (rands counter) with
    | none => none
    | some w =>
      let context' := markov_context_push_word context w
      let quote' := quote ++ [w]
      if check_end_condition w then some quote'
      else markov_generate_loop model rands fuel (counter + 1) context' quote'

/-- markov_model_generate_quote: run the loop from a fresh context with an
empty quote; `rands` supplies the `rand()` value of each iteration. The
quote is modelled as the list of appended words (add_word_to_quote joins
them with single spaces). -/
def markov_model_generate_quote (model : MarkovModel) (rands : Nat → Nat) :
    Option (List Word) :=
  markov_generate_loop model rands (MAX_QUOTE_LENGTH + 1) 0 markov_context_new []

/-- The strtok delimiters of markov_model_load_file: space, tab, newline,
carriage return. -/
def markov_is_delim (c : Nat) : Bool :=
  c == 32 || c == 9 || c == 10 || c == 13

/-- Accumulator form of strtok splitting: `cur` holds the bytes of the
token being read, most recent first. -/
def tokenize_go (cur : List Nat) : List Nat → List Word
  | [] => if cur = [] then [] else [cur.reverse]
  | c :: rest =>
    if markov_is_delim c then
      if cur = [] then tokenize_go [] rest
      else cur.reverse :: tokenize_go [] rest
    else tokenize_go (c :: cur) rest

/-- The token sequence strtok yields for one line: maximal nonempty runs
of non-delimiter bytes. -/
def tokenize (line : List Nat) : List Word :=
  tokenize_go [] line

/-- The token loop of markov_model_load_file: each token is added to the
model under the running context, then pushed into the running context. -/
def markov_feed_tokens : MarkovModel → MarkovContext → List Word →
    MarkovModel × MarkovContext
  | m, c, [] => (m, c)
  | m, c, w :: ws =>
    markov_feed_tokens (markov_model_add_data m c w)
      (markov_context_push_word c w) ws

/-- One line of the markov_model_load_file reading loop: a line with no
tokens resets the running context; a line whose first token starts with
'-' (45) is skipped entirely; otherwise every token is fed to the model. -/
def markov_trainer_process_line (model : MarkovModel) (context : MarkovContext)
    (line : List Nat) : MarkovModel × MarkovContext :=
  match tokenize line with
  | [] => (model, markov_context_reset context)
  | w :: ws =>
    if w.head? = some 45 then (model, context)
    else markov_feed_tokens model context (w :: ws)

/-- Cumulative count of the first `i` entries of a value list. -/
def mv_cum : MarkovValue → Nat → Nat
  | _, 0 => 0
  | [], _ + 1 => 0
  | (_, c) :: rest, i + 1 => c + mv_cum rest i

/-- Count stored for a word in a value list (0 when absent; sums over
duplicate keys, which markov_value_add_word never creates). -/
def mv_lookup : MarkovValue → Word → Nat
  | [], _ => 0
  | (x, c) :: rest, w => if x = w then c + mv_lookup rest w else mv_lookup rest w

/-- The table built by feeding a word sequence to markov_value_add_word,
starting from the NULL (empty) table. -/
def mv_build (ws : List Word) : MarkovValue :=
  ws.foldl markov_value_add_word []

/-- The two operations a scanning component performs on its context. -/
inductive ContextOp where
  | pushW : Word → ContextOp
  | resetC : ContextOp

/-- Apply one context operation. -/
def markov_context_apply (c : MarkovContext) : ContextOp → MarkovContext
  | ContextOp.pushW w => markov_context_push_word c w
  | ContextOp.resetC => markov_context_reset c

/-- The context reached from markov_context_new by a sequence of push /
reset operations. -/
def markov_context_run (ops : List ContextOp) : MarkovContext :=
  ops.foldl markov_context_apply markov_context_new

/-- One character step of the spec's reference fingerprint:
`hash = hash * 33 + byte`, in the 64-bit machine word. -/
def djb2_step (h b : Nat) : Nat :=
  (h * 33 + b) % 2 ^ 64

/-- One slot of the spec's reference fingerprint: a filled slot feeds each
byte through the step; an unfilled slot performs one extra
`hash = hash * 33` step. -/
def djb2_slot (h : Nat) : Option Word → Nat
  | some w => w.foldl djb2_step h
  | none => (h * 33) % 2 ^ 64

/-- The djb2 reference fingerprint in the spec's words: seed 5381,
`hash = hash * 33 + byte` per character of each filled slot in order, one
extra `hash = hash * 33` step per unfilled slot. -/
def djb2_spec_fingerprint (c : MarkovContext) : Nat :=
  djb2_slot (djb2_slot (djb2_slot 5381 c.w0) c.w1) c.w2

/-- Pairwise slot equality as the spec states it: an unfilled slot matches
only another unfilled slot; two filled slots match when the words are
equal. -/
def markov_slot_matches (x y : Option Word) : Prop :=
  match x, y with
  | none, none => True
  | some u, some v => u = v
  | _, _ => False

/-- A model is well formed when its bucket array really has `size` (> 0)
buckets, as markov_model_new always arranges. -/
def markov_model_wf (m : MarkovModel) : Prop :=
  0 < m.size ∧ m.nodes.length = m.size

instance (m : MarkovModel) : Decidable (markov_model_wf m) := by
  unfold markov_model_wf
  exact inferInstance

/-- A model holds an entry for a context when some node of some bucket
matches it. -/
def markov_model_has_context (m : MarkovModel) (context : MarkovContext) : Prop :=
  ∃ bucket ∈ m.nodes, ∃ n ∈ bucket, markov_context_check_match n.1 context = true

instance (m : MarkovModel) (context : MarkovContext) :
    Decidable (markov_model_has_context m context) := by
  unfold markov_model_has_context
  exact inferInstance

/-- A four-entry model in which every stored context has the single
successor "a" (byte 97, no sentence terminator): the contexts the
generator reaches when it keeps emitting "a" from a fresh start. -/
def markov_single_successor_model : MarkovModel :=
  markov_model_add_data
    (markov_model_add_data
      (markov_model_add_data
        (markov_model_add_data (markov_model_new HASH_MAP_SIZE)
          { w0 := none, w1 := none, w2 := none } [97])
        { w0 := none, w1 := none, w2 := some [97] } [97])
      { w0 := none, w1 := some [97], w2 := some [97] } [97])
    { w0 := some [97], w1 := some [97], w2 := some [97] } [97]

/-- The slot comparison succeeds exactly on equal slots. -/
theorem markov_slot_match_iff (x y : Option Word) :
    markov_slot_match x y = true ↔ x = y := by
  cases x <;> cases y <;> simp [markov_slot_match]

/-- Context matching coincides with structural equality of the slot arrays. -/
theorem markov_context_check_match_iff (a b : MarkovContext) :
    markov_context_check_match a b = true ↔ a = b := by
  cases a
  cases b
  simp [markov_context_check_match, markov_slot_match_iff, MarkovContext.mk.injEq, and_assoc]

/-- Matching is reflexive. -/
theorem markov_context_check_match_refl (a : MarkovContext) :
    markov_context_check_match a a = true :=
  (markov_context_check_match_iff a a).mpr rfl

/-- A canonical context is reproduced exactly by markov_context_copy. -/
theorem markov_context_copy_canonical (c : MarkovContext)
    (h : markov_context_canonical c) : markov_context_copy c = c := by
  obtain ⟨o0, o1, o2⟩ := c
  obtain ⟨h01, h12⟩ := h
  cases o0 <;> cases o1 <;> cases o2 <;>
    simp_all [markov_context_copy, markov_context_push_word, markov_context_new]

/-- The character steps of the source hash and of the spec's reference
djb2 agree: `(h << 5) + h = h * 33`. -/
theorem markov_hash_step_eq_djb2 : markov_hash_step = djb2_step := by
  funext h c
  simp only [markov_hash_step, djb2_step, Nat.shiftLeft_eq]
  norm_num
  ring_nf

/-- The slot steps of the source hash and of the spec's reference djb2
agree. -/
theorem markov_hash_slot_eq_djb2 (h : Nat) (o : Option Word) :
    markov_hash_slot h o = djb2_slot h o := by
  cases o with
  | none =>
    simp only [markov_hash_slot, djb2_slot, Nat.shiftLeft_eq]
    norm_num
    ring_nf
  | some w => simp [markov_hash_slot, djb2_slot, markov_hash_step_eq_djb2]

/-- The spec's slot relation holds exactly on equal slots. -/
theorem markov_slot_matches_iff (x y : Option Word) :
    markov_slot_matches x y ↔ x = y := by
  cases x <;> cases y <;> simp [markov_slot_matches]

/-- Claim C10: markov_context_check_match holds iff every slot of the two
contexts is pairwise-equal, an unfilled slot matching only another
unfilled slot; and the relation is reflexive, symmetric and transitive. -/
theorem markov_context_equality_spec :
    (∀ a b : MarkovContext, markov_context_check_match a b = true ↔
      (markov_slot_matches a.w0 b.w0 ∧ markov_slot_matches a.w1 b.w1 ∧
        markov_slot_matches a.w2 b.w2)) ∧
    (∀ a : MarkovContext, markov_context_check_match a a = true) ∧
    (∀ a b : MarkovContext, markov_context_check_match a b = true →
      markov_context_check_match b a = true) ∧
    (∀ a b c : MarkovContext, markov_context_check_match a b = true →
      markov_context_check_match b c = true →
      markov_context_check_match a c = true) := by
  refine ⟨?_, markov_context_check_match_refl, ?_, ?_⟩
  · intro a b
    rw [markov_context_check_match_iff]
    cases a
    cases b
    simp [markov_slot_matches_iff, MarkovContext.mk.injEq]
  · intro a b h
    rw [markov_context_check_match_iff] at h ⊢
    exact h.symm
  · intro a b c h1 h2
    rw [markov_context_check_match_iff] at h1 h2 ⊢
    exact h1.trans h2

/-- Claim C10 witness: symmetry applied at a concrete pair of contexts. -/
theorem markov_context_equality_spec_witness :
    markov_context_check_match markov_context_new markov_context_new = true :=
  markov_context_equality_spec.2.2.1 markov_context_new markov_context_new (by decide)

/-- Claim C6: matching contexts have equal hashes; the source hash equals
the djb2 reference fingerprint described by the spec; and the hash is
order sensitive: the words a = "a", b = "b", c = "c" give
`fingerprint([a,b,c]) != fingerprint([c,b,a])`. -/
theorem markov_context_fingerprint_spec :
    (∀ a b : MarkovContext, markov_context_check_match a b = true →
      markov_context_get_hash a = markov_context_get_hash b) ∧
    (∀ c : MarkovContext, markov_context_get_hash c = djb2_spec_fingerprint c) ∧
    markov_context_get_hash { w0 := some [97], w1 := some [98], w2 := some [99] } ≠
      markov_context_get_hash { w0 := some [99], w1 := some [98], w2 := some [97] } := by
  refine ⟨?_, ?_, by decide⟩
  · intro a b h
    rw [(markov_context_check_match_iff a b).mp h]
  · intro c
    simp [markov_context_get_hash, djb2_spec_fingerprint, markov_hash_slot_eq_djb2]

/-- Claim C6 witness: hash equality applied at a concrete matching pair. -/
theorem markov_context_fingerprint_spec_witness :
    markov_context_get_hash { w0 := none, w1 := none, w2 := some [97] } =
      markov_context_get_hash { w0 := none, w1 := none, w2 := some [97] } :=
  markov_context_fingerprint_spec.1 _ _ (by decide)

/-- Claim C4 (amended): for every context whose unfilled slots form a
contiguous prefix — the shape of every context the program builds —
markov_context_copy returns a context with identical slots in identical
positions, equal under markov_context_check_match. -/
theorem markov_context_copy_equal (c : MarkovContext)
    (h : markov_context_canonical c) :
    markov_context_copy c = c ∧
    markov_context_check_match (markov_context_copy c) c = true := by
  have hc := markov_context_copy_canonical c h
  exact ⟨hc, by rw [hc]; exact markov_context_check_match_refl c⟩

/-- Claim C4 witness: the amended claim at a fully filled context. -/
theorem markov_context_copy_equal_witness :
    markov_context_copy { w0 := some [97], w1 := some [98], w2 := some [99] } =
      { w0 := some [97], w1 := some [98], w2 := some [99] } ∧
    markov_context_check_match
      (markov_context_copy { w0 := some [97], w1 := some [98], w2 := some [99] })
      { w0 := some [97], w1 := some [98], w2 := some [99] } = true :=
  markov_context_copy_equal _ (by decide)

/-- Claim C4 counterexample: on the context [ "a", NULL, NULL ] — a filled
slot followed by unfilled ones — markov_context_copy compacts the word to
the last slot and the copy is not equal to the original. -/
theorem markov_context_copy_counterexample :
    markov_context_copy { w0 := some [97], w1 := none, w2 := none } ≠
      { w0 := some [97], w1 := none, w2 := none } ∧
    markov_context_check_match
      (markov_context_copy { w0 := some [97], w1 := none, w2 := none })
      { w0 := some [97], w1 := none, w2 := none } = false := by
  exact ⟨by decide, by decide⟩

/-- One push or reset preserves the contiguous-unfilled-prefix shape. -/
theorem markov_context_canonical_apply (c : MarkovContext) (op : ContextOp)
    (h : markov_context_canonical c) :
    markov_context_canonical (markov_context_apply c op) := by
  cases op with
  | pushW w => exact ⟨h.2, fun _ => rfl⟩
  | resetC => exact ⟨fun h0 => h0, fun h0 => h0⟩

/-- Folding any operation sequence preserves the shape. -/
theorem markov_context_canonical_run_aux :
    ∀ (ops : List ContextOp) (c : MarkovContext), markov_context_canonical c →
      markov_context_canonical (ops.foldl markov_context_apply c)
  | [], _, h => h
  | op :: ops, c, h =>
    markov_context_canonical_run_aux ops _ (markov_context_canonical_apply c op h)

/-- Claim C5: in every context reachable from markov_context_new by push
and reset operations, a filled slot is never followed (at a larger index)
by an unfilled one: the unfilled slots form a contiguous prefix. -/
theorem markov_context_slots_contiguous (ops : List ContextOp) (i j : Nat)
    (hij : i < j) (hj : j < MARKOV_CONTEXT_SIZE)
    (hi : (markov_context_slot (markov_context_run ops) i).isSome = true) :
    (markov_context_slot (markov_context_run ops) j).isSome = true := by
  have hc : markov_context_canonical (markov_context_run ops) :=
    markov_context_canonical_run_aux ops markov_context_new ⟨fun h0 => h0, fun h0 => h0⟩
  obtain ⟨h01, h12⟩ := hc
  have hj3 : j < 3 := hj
  interval_cases j
  · omega
  · have hi0 : i = 0 := by omega
    subst hi0
    exact h01 hi
  · rcases Nat.lt_or_ge i 1 with h0 | h1
    · have hi0 : i = 0 := by omega
      subst hi0
      exact h12 (h01 hi)
    · have hi1 : i = 1 := by omega
      subst hi1
      exact h12 hi

/-- Claim C5 witness: after pushing "a" then "b" into a fresh context,
slot 1 is filled, so slot 2 must be as well. -/
theorem markov_context_slots_contiguous_witness :
    (markov_context_slot
      (markov_context_run [ContextOp.pushW [97], ContextOp.pushW [98]]) 2).isSome = true :=
  markov_context_slots_contiguous [ContextOp.pushW [97], ContextOp.pushW [98]] 1 2
    (by decide) (by decide) (by decide)

/-- Claim C9: a training line whose first token starts with '-' (45)
leaves the model and the running context completely unchanged: no
markov_model_add_data call, no push and no reset. -/
theorem markov_trainer_skip_line (m : MarkovModel) (c : MarkovContext)
    (line : List Nat) (w : Word) (ws : List Word)
    (htok : tokenize line = w :: ws) (hskip : w.head? = some 45) :
    markov_trainer_process_line m c line = (m, c) := by
  unfold markov_trainer_process_line
  rw [htok]
  simp [hskip]

/-- Claim C9 witness: the skip line "-hi a" against a fresh model and
context. -/
theorem markov_trainer_skip_line_witness :
    markov_trainer_process_line (markov_model_new HASH_MAP_SIZE) markov_context_new
      [45, 104, 105, 32, 97] = (markov_model_new HASH_MAP_SIZE, markov_context_new) :=
  markov_trainer_skip_line (markov_model_new HASH_MAP_SIZE) markov_context_new
    [45, 104, 105, 32, 97] [45, 104, 105] [[97]] (by decide) (by decide)

/-- Claim C1 (code bug): on a model with zero entries,
markov_model_get_next does return the absence signal on the very first
call; but markov_model_generate_quote pushes the returned NULL word into
the context (`strdup(NULL)`, undefined behavior — modelled as `none`)
before the `if (!word) break;` test, so generation crashes instead of
returning the empty output sequence. -/
theorem markov_generate_empty_model_crashes :
    markov_model_get_next (markov_model_new HASH_MAP_SIZE) markov_context_new 0 = none ∧
    markov_model_generate_quote (markov_model_new HASH_MAP_SIZE) (fun _ => 0) = none := by
  exact ⟨by decide, by decide⟩

set_option maxRecDepth 4000 in
/-- Claim C2 (code bug): in markov_single_successor_model every stored
context has exactly one successor word and no stored word contains a
sentence terminator, yet the generation loop (`counter <= MAX_QUOTE_LENGTH`,
counter running 0..50 inclusive) appends MAX_QUOTE_LENGTH + 1 = 51 words,
one more than the documented maximum. -/
theorem markov_generate_off_by_one :
    (markov_single_successor_model.nodes.all fun bucket => bucket.all fun n =>
      n.2.length == 1 && n.2.all fun p => !check_end_condition p.1) = true ∧
    markov_model_generate_quote markov_single_successor_model (fun _ => 0) =
      some (List.replicate (MAX_QUOTE_LENGTH + 1) [97]) := by
  exact ⟨by decide, by decide⟩

/-- A bucket with no matching node fails the markov_node_add_node search
walk. -/
theorem markov_node_has_context_eq_false (bucket : List MarkovNode)
    (ctx : MarkovContext)
    (h : ∀ n ∈ bucket, markov_context_check_match n.1 ctx = false) :
    markov_node_has_context bucket ctx = false := by
  induction bucket with
  | nil => rfl
  | cons n rest ih =>
    rw [markov_node_has_context]
    rw [h n (List.mem_cons_self n rest)]
    simp only [Bool.false_eq_true, if_false]
    exact ih fun n' hn' => h n' (List.mem_cons_of_mem n hn')

/-- Claim C3 (amended): for a context whose unfilled slots form a
contiguous prefix (the shape of every context the program builds), adding
a word under it to a well-formed model with no matching entry creates a
single-entry table, and markov_model_get_next then returns that word for
every random draw. -/
theorem markov_model_roundtrip (m : MarkovModel) (ctx : MarkovContext)
    (w : Word) (r : Nat)
    (hcanon : markov_context_canonical ctx) (hwf : markov_model_wf m)
    (habsent : ¬ markov_model_has_context m ctx) :
    markov_model_get_next (markov_model_add_data m ctx w) ctx r = some w := by
  obtain ⟨hsize, hlen⟩ := hwf
  have hidx : markov_context_get_hash ctx % m.size < m.nodes.length := by
    rw [hlen]
    exact Nat.mod_lt _ hsize
  have hbmem : m.nodes.getD (markov_context_get_hash ctx % m.size) [] ∈ m.nodes := by
    rw [List.getD_eq_getElem _ _ hidx]
    exact List.getElem_mem hidx
  have hno : ∀ n ∈ m.nodes.getD (markov_context_get_hash ctx % m.size) [],
      markov_context_check_match n.1 ctx = false := by
    intro n hn
    cases hb : markov_context_check_match n.1 ctx with
    | false => rfl
    | true => exact absurd ⟨_, hbmem, n, hn, hb⟩ habsent
  have hset : ((m.nodes.set (markov_context_get_hash ctx % m.size)
        (markov_node_add_node
          (m.nodes.getD (markov_context_get_hash ctx % m.size) []) ctx w)).getD
        (markov_context_get_hash ctx % m.size) []) =
      markov_node_add_node
        (m.nodes.getD (markov_context_get_hash ctx % m.size) []) ctx w := by
    rw [List.getD_eq_getElem _ _ (by rw [List.length_set]; exact hidx)]
    exact List.getElem_set_self _
  rw [markov_model_add_data, markov_model_get_next]
  simp only [hset]
  rw [markov_node_add_node, markov_node_has_context_eq_false _ _ hno]
  simp only [Bool.false_eq_true, if_false]
  rw [markov_node_find_value]
  rw [markov_context_copy_canonical ctx hcanon]
  rw [markov_context_check_match_refl]
  simp [markov_value_add_word, mv_has_word, markov_value_get_random, mv_total,
    mv_walk, Nat.mod_one]

set_option maxRecDepth 8000 in
/-- Claim C3 witness: a fresh model, the fresh (all-unfilled) context and
the word "hi", sampled with draw 7. -/
theorem markov_model_roundtrip_witness :
    markov_model_get_next
      (markov_model_add_data (markov_model_new HASH_MAP_SIZE) markov_context_new
        [104, 105])
      markov_context_new 7 = some [104, 105] :=
  markov_model_roundtrip (markov_model_new HASH_MAP_SIZE) markov_context_new
    [104, 105] 7 (by decide) (by decide) (by decide)

set_option maxRecDepth 8000 in
/-- Claim C3 counterexample: the context [ "a", NULL, NULL ] (an unfilled
slot after a filled one) is stored as its compacted copy, which does not
match the original context, so predict_next returns the absence signal
instead of the added word. -/
theorem markov_model_roundtrip_counterexample :
    ¬ markov_model_has_context (markov_model_new HASH_MAP_SIZE)
        { w0 := some [97], w1 := none, w2 := none } ∧
    markov_model_get_next
      (markov_model_add_data (markov_model_new HASH_MAP_SIZE)
        { w0 := some [97], w1 := none, w2 := none } [104])
      { w0 := some [97], w1 := none, w2 := none } 0 ≠ some [104] := by
  exact ⟨by decide, by decide⟩

/-- Cumulative counts grow with the index. -/
theorem mv_cum_mono : ∀ (v : MarkovValue) (i j : Nat), i ≤ j →
    mv_cum v i ≤ mv_cum v j
  | [], i, j, _ => by cases i <;> cases j <;> simp [mv_cum]
  | (w, c) :: rest, 0, j, _ => by cases j <;> simp [mv_cum]
  | (w, c) :: rest, i + 1, j + 1, h => by
    have hr := mv_cum_mono rest i j (Nat.le_of_succ_le_succ h)
    simp [mv_cum]
    omega

/-- Past the end of the list the cumulative count is the total. -/
theorem mv_cum_of_length_le : ∀ (v : MarkovValue) (j : Nat), v.length ≤ j →
    mv_cum v j = mv_total v
  | [], j, _ => by cases j <;> simp [mv_cum, mv_total]
  | (w, c) :: rest, j + 1, h => by
    have hr := mv_cum_of_length_le rest j (Nat.le_of_succ_le_succ h)
    simp [mv_cum, mv_total, hr]

/-- The subtracting walk lands in the unique entry whose cumulative-count
range contains the draw. -/
theorem mv_walk_spec : ∀ (v : MarkovValue) (r : Nat), r < mv_total v →
    ∃ i : Fin v.length, mv_cum v i.val ≤ r ∧ r < mv_cum v (i.val + 1) ∧
      mv_walk v r = some (v.get i).1 := by
  intro v
  induction v with
  | nil =>
    intro r hr
    simp [mv_total] at hr
  | cons p rest ih =>
    intro r hr
    obtain ⟨w, c⟩ := p
    by_cases hrc : r < c
    · refine ⟨⟨0, Nat.succ_pos _⟩, ?_, ?_, ?_⟩
      · simp [mv_cum]
      · simpa [mv_cum] using hrc
      · simp [mv_walk, hrc, List.get]
    · have hr2 : r - c < mv_total rest := by
        simp [mv_total] at hr
        omega
      obtain ⟨i, h1, h2, h3⟩ := ih (r - c) hr2
      refine ⟨⟨i.val + 1, Nat.succ_lt_succ i.isLt⟩, ?_, ?_, ?_⟩
      · simp [mv_cum]
        omega
      · simp [mv_cum]
        omega
      · simpa [mv_walk, hrc] using h3

/-- Two cumulative ranges containing the same draw have the same index. -/
theorem mv_cum_unique (v : MarkovValue) (r i j : Nat)
    (hi1 : mv_cum v i ≤ r) (hi2 : r < mv_cum v (i + 1))
    (hj1 : mv_cum v j ≤ r) (hj2 : r < mv_cum v (j + 1)) : j = i := by
  rcases Nat.lt_trichotomy j i with h | h | h
  · have hmono := mv_cum_mono v (j + 1) i h
    omega
  · exact h
  · have hmono := mv_cum_mono v (i + 1) j h
    omega

/-- Claim C7: for a non-empty value list and a draw below the total,
markov_value_get_random returns the word of the unique entry whose
cumulative-count range (in list order) contains the draw; the word is a
key of the table, and the result is a function of the draw and the list
order. -/
theorem markov_value_sample_spec (v : MarkovValue) (r : Nat)
    (hv : v ≠ []) (hr : r < mv_total v) :
    ∃ i : Fin v.length,
      mv_cum v i.val ≤ r ∧ r < mv_cum v (i.val + 1) ∧
      markov_value_get_random v r = some (v.get i).1 ∧
      (v.get i).1 ∈ v.map Prod.fst ∧
      ∀ j : Nat, mv_cum v j ≤ r → r < mv_cum v (j + 1) → j = i.val := by
  obtain ⟨i, h1, h2, h3⟩ := mv_walk_spec v r hr
  refine ⟨i, h1, h2, ?_, ?_, ?_⟩
  · rw [markov_value_get_random, Nat.mod_eq_of_lt hr, h3]
  · exact List.mem_map_of_mem Prod.fst (List.get_mem v i.val i.isLt)
  · intro j hj1 hj2
    exact mv_cum_unique v r i.val j h1 h2 hj1 hj2

/-- Claim C7 witness: the table x:1, y:9 with draw 5 (the range of "y"). -/
theorem markov_value_sample_spec_witness :
    ∃ i : Fin ([([120], 1), ([121], 9)] : MarkovValue).length,
      mv_cum [([120], 1), ([121], 9)] i.val ≤ 5 ∧
      5 < mv_cum [([120], 1), ([121], 9)] (i.val + 1) ∧
      markov_value_get_random [([120], 1), ([121], 9)] 5 =
        some (([([120], 1), ([121], 9)] : MarkovValue).get i).1 ∧
      (([([120], 1), ([121], 9)] : MarkovValue).get i).1 ∈
        ([([120], 1), ([121], 9)] : MarkovValue).map Prod.fst ∧
      ∀ j : Nat, mv_cum [([120], 1), ([121], 9)] j ≤ 5 →
        5 < mv_cum [([120], 1), ([121], 9)] (j + 1) → j = i.val :=
  markov_value_sample_spec [([120], 1), ([121], 9)] 5 (by decide) (by decide)

/-- A failed membership walk means no node holds the word. -/
theorem mv_has_word_eq_false_iff (v : MarkovValue) (w : Word) :
    mv_has_word v w = false ↔ ∀ p ∈ v, p.1 ≠ w := by
  induction v with
  | nil => simp [mv_has_word]
  | cons p rest ih =>
    obtain ⟨x, c⟩ := p
    by_cases hx : x = w <;> simp [mv_has_word, hx, ih]

/-- Incrementing a stored word raises its looked-up count by one and
leaves every other count unchanged. -/
theorem mv_lookup_increment (v : MarkovValue) (w x : Word)
    (h : mv_has_word v w = true) :
    mv_lookup (mv_increment v w) x = mv_lookup v x + if x = w then 1 else 0 := by
  induction v with
  | nil => simp [mv_has_word] at h
  | cons p rest ih =>
    obtain ⟨y, c⟩ := p
    by_cases hy : y = w
    · subst hy
      by_cases hx : y = x
      · subst hx
        simp [mv_increment, mv_lookup]
        omega
      · have hxy : ¬ x = y := fun hh => hx hh.symm
        simp [mv_increment, mv_lookup, hx, hxy]
    · have h2 : mv_has_word rest w = true := by
        simpa [mv_has_word, hy] using h
      by_cases hx : y = x
      · subst hx
        simp [mv_increment, mv_lookup, hy, ih h2]
      · simp [mv_increment, mv_lookup, hy, hx, ih h2]

/-- markov_value_add_word raises the looked-up count of the added word by
one and leaves every other count unchanged. -/
theorem mv_lookup_add_word (v : MarkovValue) (w x : Word) :
    mv_lookup (markov_value_add_word v w) x =
      mv_lookup v x + if x = w then 1 else 0 := by
  rw [markov_value_add_word]
  cases hh : mv_has_word v w with
  | true => simp [mv_lookup_increment v w x hh]
  | false =>
    by_cases hx : x = w
    · subst hx
      simp [mv_lookup]
      omega
    · have hwx : ¬ w = x := fun hh2 => hx hh2.symm
      simp [mv_lookup, hx, hwx]

/-- Incrementing a stored word raises the total count by one. -/
theorem mv_total_increment (v : MarkovValue) (w : Word)
    (h : mv_has_word v w = true) :
    mv_total (mv_increment v w) = mv_total v + 1 := by
  induction v with
  | nil => simp [mv_has_word] at h
  | cons p rest ih =>
    obtain ⟨y, c⟩ := p
    by_cases hy : y = w
    · simp [mv_increment, mv_total, hy]
      omega
    · rw [mv_has_word, if_neg hy] at h
      simp [mv_increment, mv_total, hy, ih h]
      omega

/-- markov_value_add_word raises the total count by one. -/
theorem mv_total_add_word (v : MarkovValue) (w : Word) :
    mv_total (markov_value_add_word v w) = mv_total v + 1 := by
  rw [markov_value_add_word]
  cases hh : mv_has_word v w with
  | true => simp [mv_total_increment v w hh]
  | false => simp [mv_total]; omega

/-- Incrementing never changes the key list. -/
theorem mv_keys_increment (v : MarkovValue) (w : Word) :
    (mv_increment v w).map Prod.fst = v.map Prod.fst := by
  induction v with
  | nil => rfl
  | cons p rest ih =>
    obtain ⟨y, c⟩ := p
    by_cases hy : y = w <;> simp [mv_increment, hy, ih]

/-- markov_value_add_word keeps the key list duplicate-free. -/
theorem mv_keys_nodup_add_word (v : MarkovValue) (w : Word)
    (h : (v.map Prod.fst).Nodup) :
    ((markov_value_add_word v w).map Prod.fst).Nodup := by
  rw [markov_value_add_word]
  cases hh : mv_has_word v w with
  | true =>
    rw [if_pos rfl, mv_keys_increment]
    exact h
  | false =>
    rw [if_neg Bool.false_ne_true]
    simp only [List.map_cons, List.nodup_cons]
    refine ⟨?_, h⟩
    rw [mv_has_word_eq_false_iff] at hh
    simp only [List.mem_map]
    rintro ⟨p, hp, hpw⟩
    exact hh p hp hpw

/-- Incrementing keeps every count at least one. -/
theorem mv_counts_pos_increment (v : MarkovValue) (w : Word)
    (h : ∀ p ∈ v, 1 ≤ p.2) : ∀ p ∈ mv_increment v w, 1 ≤ p.2 := by
  induction v with
  | nil => simp [mv_increment]
  | cons q rest ih =>
    obtain ⟨y, c⟩ := q
    by_cases hy : y = w
    · simp only [mv_increment, if_pos hy]
      intro p hp
      rcases List.mem_cons.mp hp with hp1 | hp2
      · subst hp1; omega
      · exact h p (List.mem_cons_of_mem _ hp2)
    · simp only [mv_increment, if_neg hy]
      intro p hp
      rcases List.mem_cons.mp hp with hp1 | hp2
      · subst hp1
        exact h _ (List.mem_cons_self _ _)
      · exact ih (fun q hq => h q (List.mem_cons_of_mem _ hq)) p hp2

/-- markov_value_add_word keeps every count at least one. -/
theorem mv_counts_pos_add_word (v : MarkovValue) (w : Word)
    (h : ∀ p ∈ v, 1 ≤ p.2) : ∀ p ∈ markov_value_add_word v w, 1 ≤ p.2 := by
  rw [markov_value_add_word]
  cases hh : mv_has_word v w with
  | true => exact mv_counts_pos_increment v w h
  | false =>
    intro p hp
    rcases List.mem_cons.mp hp with hp1 | hp2
    · subst hp1; omega
    · exact h p hp2

/-- Folding a word sequence into a table adds each word's occurrence
count to every looked-up count. -/
theorem mv_build_aux_lookup : ∀ (ws : List Word) (v : MarkovValue) (x : Word),
    mv_lookup (ws.foldl markov_value_add_word v) x = mv_lookup v x + ws.count x
  | [], v, x => by simp
  | w :: ws, v, x => by
    rw [List.foldl_cons, mv_build_aux_lookup ws _ x, mv_lookup_add_word,
      List.count_cons]
    by_cases hx : x = w
    · subst hx
      simp
      omega
    · have hwx : ¬ w = x := fun hh => hx hh.symm
      simp [hx, hwx]

/-- Folding a word sequence adds its length to the total count. -/
theorem mv_build_aux_total : ∀ (ws : List Word) (v : MarkovValue),
    mv_total (ws.foldl markov_value_add_word v) = mv_total v + ws.length
  | [], v => by simp
  | w :: ws, v => by
    rw [List.foldl_cons, mv_build_aux_total ws _, mv_total_add_word]
    simp
    omega

/-- Folding a word sequence keeps the key list duplicate-free. -/
theorem mv_build_aux_nodup : ∀ (ws : List Word) (v : MarkovValue),
    (v.map Prod.fst).Nodup → ((ws.foldl markov_value_add_word v).map Prod.fst).Nodup
  | [], _, h => h
  | w :: ws, v, h => mv_build_aux_nodup ws _ (mv_keys_nodup_add_word v w h)

/-- Folding a word sequence keeps every count at least one. -/
theorem mv_build_aux_pos : ∀ (ws : List Word) (v : MarkovValue),
    (∀ p ∈ v, 1 ≤ p.2) → ∀ p ∈ ws.foldl markov_value_add_word v, 1 ≤ p.2
  | [], _, h => h
  | w :: ws, v, h => mv_build_aux_pos ws _ (mv_counts_pos_add_word v w h)

/-- The total-count loop computes the sum of the stored counts. -/
theorem mv_total_eq_sum : ∀ v : MarkovValue,
    mv_total v = (v.map Prod.snd).sum
  | [] => rfl
  | (w, c) :: rest => by simp [mv_total, mv_total_eq_sum rest]

/-- Claim C8: the table built from a word sequence by markov_value_add_word
maps each word to its number of occurrences in the sequence, keeps every
stored count at least one, stores each word at most once as a key, and has
total count equal to the sequence length and to the sum of all entries. -/
theorem markov_value_accumulation (ws : List Word) :
    (∀ x : Word, mv_lookup (mv_build ws) x = ws.count x) ∧
    (∀ p ∈ mv_build ws, 1 ≤ p.2) ∧
    ((mv_build ws).map Prod.fst).Nodup ∧
    mv_total (mv_build ws) = ws.length ∧
    mv_total (mv_build ws) = ((mv_build ws).map Prod.snd).sum := by
  refine ⟨?_, ?_, ?_, ?_, mv_total_eq_sum _⟩
  · intro x
    rw [mv_build, mv_build_aux_lookup]
    simp [mv_lookup]
  · exact mv_build_aux_pos ws [] (by simp)
  · exact mv_build_aux_nodup ws [] (by simp)
  · rw [mv_build, mv_build_aux_total]
    simp [mv_total]

/-- Claim C8 witness: a count obtained from the sequence "a", "b", "a". -/
theorem markov_value_accumulation_witness :
    1 ≤ (([98], 1) : Word × Nat).2 :=
  (markov_value_accumulation [[97], [98], [97]]).2.1 ([98], 1) (by decide)
